import Mathlib

/-!
Shallow embedding of `src/evaluation_measures.py` (sound-event-detection
evaluation metrics) and proofs of the specification claims about it.

Modelling conventions:
* numpy 2-D arrays are `List (List Int)` (rows × classes); the column count
  `C` (implicit in a numpy array's shape) is passed explicitly.
* pandas dataframes of event records are `List Event`; a missing (NaN) cell
  is `Option.none`.
* Python floats are modelled by `ℚ` where only exact values matter, and by
  `PyFloat` (rationals extended with NaN and +inf) where the claims concern
  IEEE division-by-zero behaviour.
* External libraries (sed_eval, psds_eval, the many-hot encoder) are
  abstracted as function parameters; only the repository's own code is
  embedded.
-/

namespace SEDTEval

/-- First-occurrence deduplication with an accumulator of already-seen keys.
Models `pandas.Series.unique` / the `list(set(...))`-style distinct-value
extraction where only membership (not order) is relied upon. -/
def dedupKeepFirstAux [BEq α] (seen : List α) : List α → List α
  | [] => []
  | x :: xs =>
    if seen.contains x then dedupKeepFirstAux seen xs
    else x :: dedupKeepFirstAux (x :: seen) xs

/-- First-occurrence deduplication, models `reference["filename"].unique()`. -/
def dedupKeepFirst [BEq α] (l : List α) : List α :=
  dedupKeepFirstAux [] l

/-- Elementwise binary operation on two matrices, modelling numpy elementwise
`+` / `-` on same-shape 2-D arrays. -/
def matOp (f : Int → Int → Int) (A B : List (List Int)) : List (List Int) :=
  List.zipWith (List.zipWith f) A B

/-- Per-column count of entries equal to `v`, modelling
`(... == v).sum(axis=0)` for a 2-D array with `C` columns. -/
def colCountEq (C : Nat) (v : Int) (m : List (List Int)) : List Nat :=
  (List.range C).map (fun c => m.countP (fun row => row.getD c 0 == v))

/-- Embedding of `intermediate_at_measures(encoded_ref, encoded_est)`
(src/evaluation_measures.py lines 350-366):
`tp = (est + ref == 2).sum(axis=0)`, `fp = (est - ref == 1).sum(axis=0)`,
`fn = (ref - est == 1).sum(axis=0)`, `tn = (est + ref == 0).sum(axis=0)`. -/
def intermediate_at_measures (C : Nat) (encoded_ref encoded_est : List (List Int)) :
    List Nat × List Nat × List Nat × List Nat :=
  (colCountEq C 2 (matOp (· + ·) encoded_est encoded_ref),
   colCountEq C 1 (matOp (· - ·) encoded_est encoded_ref),
   colCountEq C 1 (matOp (· - ·) encoded_ref encoded_est),
   colCountEq C 0 (matOp (· + ·) encoded_est encoded_ref))

/-- Embedding of `macro_f_measure(tp, fp, fn)` (lines 369-384): starts from a
zero vector and assigns `2*tp/(2*tp+fp+fn)` exactly at the classes where the
mask `2*tp+fp+fn != 0` holds, which elementwise is the conditional below. -/
def macro_f_measure (tp fp fn : List Nat) : List ℚ :=
  (tp.zip (fp.zip fn)).map (fun p =>
    if 2 * p.1 + p.2.1 + p.2.2 ≠ 0 then
      (2 * p.1 : ℚ) / ((2 * p.1 + p.2.1 + p.2.2 : Nat) : ℚ)
    else 0)

/-- One row of a strongly-labelled event dataframe (`filename`, `event_label`,
`onset`, `offset`); a missing (NaN / absent) cell is `none`.  `to_dict('records')`
on such a dataframe is the identity on this representation. -/
structure Event where
  filename : String
  event_label : Option String
  onset : Option ℚ
  offset : Option ℚ
deriving DecidableEq

/-- Embedding of `get_event_list_current_file(df, fname)` (lines 33-49):
filter the rows of `df` whose `filename` equals `fname`; when exactly one row
matches and its `event_label` is NaN, return the single dictionary
`{"filename": fname}` (all event fields absent); otherwise return the matching
rows as records. -/
def get_event_list_current_file (df : List Event) (fname : String) : List Event :=
  let event_file := df.filter (fun r => r.filename == fname)
  match event_file with
  | [r] =>
    if r.event_label = none then
      [{ filename := fname, event_label := none, onset := none, offset := none }]
    else [r]
  | _ => event_file

/-- `reference["filename"].unique()` as used by `event_based_evaluation_df`
and `segment_based_evaluation_df` (lines 66 and 104). -/
def evaluated_files (reference : List Event) : List String :=
  dedupKeepFirst (reference.map (fun r => r.filename))

/-- Embedding of the loop of `event_based_evaluation_df` (lines 80-87): the
sequence of (reference event list, estimated event list) pairs submitted to
the external `sed_eval` event-based accumulator, one pair per distinct
filename of the reference table.  The accumulator object itself is external
(sed_eval) and is not modelled. -/
def event_based_evaluation_df (reference estimated : List Event) :
    List (List Event × List Event) :=
  (evaluated_files reference).map (fun fname =>
    (get_event_list_current_file reference fname,
     get_event_list_current_file estimated fname))

/-- Embedding of the loop of `segment_based_evaluation_df` (lines 116-123):
identical submission pattern to `event_based_evaluation_df`, feeding the
external segment-based accumulator. -/
def segment_based_evaluation_df (reference estimated : List Event) :
    List (List Event × List Event) :=
  (evaluated_files reference).map (fun fname =>
    (get_event_list_current_file reference fname,
     get_event_list_current_file estimated fname))

/-- A dataframe cell as used by `format_df`: a string label, an encoded
multi-hot vector, or NaN. -/
inductive Cell where
  | str (s : String)
  | vec (v : List Int)
  | na
deriving DecidableEq, BEq

/-- One row of the dataframes handled by `format_df`: only `filename` and
`event_label` are read by `join_labels`; the `onset` / `offset` data columns
are represented by table-level presence flags on `DF`. -/
structure DFRow where
  filename : String
  event_label : Cell
deriving DecidableEq

/-- A dataframe for `format_df`: presence of the `onset` / `offset` columns
(which is all the branch condition inspects) plus the rows. -/
structure DF where
  hasOnset : Bool
  hasOffset : Bool
  rows : List DFRow
deriving DecidableEq

/-- Embedding of `format_df(df, mhe)` (lines 264-280): when the table has an
`onset` or an `offset` column, group by `filename` and reduce each group with
`join_labels` (labels deduplicated, NaN dropped, then encoded by the external
many-hot encoder `mhe`); otherwise return the table unchanged.  Group keys are
taken in first-occurrence order (pandas sorts them; no proved property depends
on group order). -/
def format_df (df : DF) (mhe : List Cell → List Int) : DF :=
  if df.hasOnset || df.hasOffset then
    { hasOnset := false, hasOffset := false,
      rows := (dedupKeepFirst (df.rows.map (fun r => r.filename))).map (fun f =>
        let grp := df.rows.filter (fun r => r.filename == f)
        { filename := f,
          event_label := Cell.vec (mhe
            (((dedupKeepFirst (grp.map (fun r => r.event_label))).filter
              (fun c => !(c == Cell.na))))) }) }
  else df

/-- One row of a weak (clip-level) table as produced by `format_df` before the
merge in `audio_tagging_results`: a filename and a multi-hot label vector.
(The many-hot encoder producing the vectors is external code.) -/
structure WeakRow where
  filename : String
  event_label : List Int
deriving DecidableEq

/-- One row of `matching = reference.merge(estimated, how='outer',
on="filename", suffixes=["_ref", "_pred"])` (line 402); a side with no match
holds NaN, i.e. `none`. -/
structure MergedRow where
  filename : String
  event_label_ref : Option (List Int)
  event_label_pred : Option (List Int)
deriving DecidableEq

/-- Embedding of the outer merge on `filename` (line 402): every reference row
paired with each estimated row of the same filename (or with NaN when there is
none), followed by the estimated rows whose filename never occurs in the
reference table.  (pandas orders an outer join by key; row order is irrelevant
to the counts proved about it.) -/
def outer_merge (reference estimated : List WeakRow) : List MergedRow :=
  (reference.flatMap (fun r =>
    let ms := estimated.filter (fun e => e.filename == r.filename)
    if ms.isEmpty then [⟨r.filename, some r.event_label, none⟩]
    else ms.map (fun e => ⟨r.filename, some r.event_label, some e.event_label⟩)))
  ++ ((estimated.filter (fun e =>
        reference.all (fun r => !(r.filename == e.filename)))).map
      (fun e => ⟨e.filename, none, some e.event_label⟩))

/-- Embedding of the local `na_values(val)` of `audio_tagging_results`
(lines 404-409): an actual vector is kept, a NaN becomes `np.zeros(len(classes))`. -/
def na_values (C : Nat) : Option (List Int) → List Int
  | some v => v
  | none => List.replicate C 0

/-- The matrices handed to `intermediate_at_measures` at lines 415-416, built
from a list of merged rows after `na_values` is applied to both columns. -/
def rows_confusion (C : Nat) (ms : List MergedRow) :
    List Nat × List Nat × List Nat × List Nat :=
  intermediate_at_measures C
    (ms.map (fun m => na_values C m.event_label_ref))
    (ms.map (fun m => na_values C m.event_label_pred))

/-- The contribution of one merged row to the accumulated confusion counts. -/
def row_confusion (C : Nat) (m : MergedRow) :
    List Nat × List Nat × List Nat × List Nat :=
  rows_confusion C [m]

/-- The `tp, fp, fn, tn` of `audio_tagging_results` (lines 402-416) on
already-weak tables (the external many-hot encoding having been applied). -/
def audio_tagging_counts (C : Nat) (reference estimated : List WeakRow) :
    List Nat × List Nat × List Nat × List Nat :=
  rows_confusion C (outer_merge reference estimated)

/-- Python float restricted to the values arising in the per-class rates of
`audio_tagging_results`: NaN, +inf, or an exact non-negative rational.
(Counts and their quotients here are exactly representable concerns only in
so far as NaN generation and propagation are claimed; rounding plays no role
in those.) -/
inductive PyFloat where
  | nan
  | inf
  | val (q : ℚ)
deriving DecidableEq

/-- IEEE addition on the non-negative fragment: NaN propagates, +inf absorbs. -/
def pyAdd : PyFloat → PyFloat → PyFloat
  | .nan, _ => .nan
  | _, .nan => .nan
  | .inf, _ => .inf
  | _, .inf => .inf
  | .val a, .val b => .val (a + b)

/-- IEEE division on the non-negative fragment: `0/0 = NaN`, `a/0 = +inf` for
`a > 0`, NaN propagates. -/
def pyDiv : PyFloat → PyFloat → PyFloat
  | .nan, _ => .nan
  | _, .nan => .nan
  | .inf, .inf => .nan
  | .inf, .val _ => .inf
  | .val _, .inf => .val 0
  | .val a, .val b =>
    if b = 0 then (if a = 0 then .nan else .inf) else .val (a / b)

/-- numpy `mean` over a vector of floats: sum divided by length
(mean of an empty vector is `0/0 = NaN`, as numpy warns and returns). -/
def pyMean (l : List PyFloat) : PyFloat :=
  pyDiv (l.foldr pyAdd (.val 0)) (.val l.length)

/-- The `macro_f` vector of `audio_tagging_results` (lines 417 and 421):
`macro_f_measure(tp, fp, fn)` when the estimated table is non-empty, else
`np.zeros(len(classes))`. -/
def audio_tagging_macro_f (C : Nat) (reference estimated : List WeakRow) :
    List PyFloat :=
  if estimated.isEmpty then List.replicate C (.val 0)
  else
    let counts := audio_tagging_counts C reference estimated
    (macro_f_measure counts.1 counts.2.1 counts.2.2.1).map .val

/-- The `macro_p` vector of `audio_tagging_results` (lines 418 and 422):
the unguarded `tp / (tp + fp)` in float arithmetic. -/
def audio_tagging_macro_p (C : Nat) (reference estimated : List WeakRow) :
    List PyFloat :=
  if estimated.isEmpty then List.replicate C (.val 0)
  else
    let counts := audio_tagging_counts C reference estimated
    (counts.1.zip counts.2.1).map (fun p =>
      pyDiv (.val (p.1 : ℚ)) (.val ((p.1 : ℚ) + (p.2 : ℚ))))

/-- The `macro_r` vector of `audio_tagging_results` (lines 419 and 423):
the unguarded `tp / (tp + fn)` in float arithmetic. -/
def audio_tagging_macro_r (C : Nat) (reference estimated : List WeakRow) :
    List PyFloat :=
  if estimated.isEmpty then List.replicate C (.val 0)
  else
    let counts := audio_tagging_counts C reference estimated
    (counts.1.zip counts.2.2.1).map (fun p =>
      pyDiv (.val (p.1 : ℚ)) (.val ((p.1 : ℚ) + (p.2 : ℚ))))

/-- The trailing `avg` row appended at lines 426-427: `data.mean(0)`, i.e. the
per-column (f, p, r) means over the classes. -/
def audio_tagging_avg_row (C : Nat) (reference estimated : List WeakRow) :
    PyFloat × PyFloat × PyFloat :=
  (pyMean (audio_tagging_macro_f C reference estimated),
   pyMean (audio_tagging_macro_p C reference estimated),
   pyMean (audio_tagging_macro_r C reference estimated))

/-- Embedding of `compute_metrics(predictions, gtruth_df, meta_df, cal_seg,
cal_clip)` (lines 440-472): an empty predictions table short-circuits to
`(0, 0, 0)` before anything else runs; the non-empty branch (delegated to the
external sed_eval / audio-tagging pipeline) is abstracted as `backend`.
`meta_df` is never read on the live path (it only feeds commented-out code). -/
def compute_metrics {α : Type} (backend : List Event → List Event → Bool → Bool → ℚ × ℚ × ℚ)
    (predictions gtruth_df : List Event) (_meta_df : Option α)
    (cal_seg cal_clip : Bool) : ℚ × ℚ × ℚ :=
  if predictions.isEmpty then (0, 0, 0)
  else backend predictions gtruth_df cal_seg cal_clip

/-- One `psds.psds(alpha_ct, alpha_st, max_efpr)` query (lines 231-236). -/
structure PsdsQuery where
  alpha_ct : ℚ
  alpha_st : ℚ
  max_efpr : ℚ
deriving DecidableEq

/-- How `psds_score` finishes: the whole body ran, or a `PSDSEvalError` was
caught and logged (line 245-247). -/
inductive PsdsOutcome where
  | completed
  | errorLogged (e : String)
deriving DecidableEq

/-- The `try` body of `psds_score` (lines 230-243): the three queries issued
in program order, aborting at the first evaluator error (carrying the queries
attempted up to and including the failing one).  The external evaluator is
abstracted as `psds`; the ROC-plot branch only performs I/O and issues no
further score queries. -/
def psds_try_body (psds : ℚ → ℚ → ℚ → Except String ℚ) :
    Except (String × List PsdsQuery) (List PsdsQuery) :=
  match psds 0 0 100 with
  | .error e => .error (e, [⟨0, 0, 100⟩])
  | .ok _ =>
    match psds 1 0 100 with
    | .error e => .error (e, [⟨0, 0, 100⟩, ⟨1, 0, 100⟩])
    | .ok _ =>
      match psds 0 1 100 with
      | .error e => .error (e, [⟨0, 0, 100⟩, ⟨1, 0, 100⟩, ⟨0, 1, 100⟩])
      | .ok _ => .ok [⟨0, 0, 100⟩, ⟨1, 0, 100⟩, ⟨0, 1, 100⟩]

/-- Embedding of `psds_score(psds, ...)` (lines 223-247): run the `try` body;
a `PSDSEvalError` is caught and logged, and the function returns normally in
either case (its value reports the queries made and the outcome). -/
def psds_score (psds : ℚ → ℚ → ℚ → Except String ℚ) :
    List PsdsQuery × PsdsOutcome :=
  match psds_try_body psds with
  | .ok qs => (qs, .completed)
  | .error (e, qs) => (qs, .errorLogged e)

/-! ## Supporting lemmas -/

theorem mem_of_mem_dedupKeepFirstAux [BEq α] {a : α} :
    ∀ (seen l : List α), a ∈ dedupKeepFirstAux seen l → a ∈ l := by
  intro seen l
  induction l generalizing seen with
  | nil => simp [dedupKeepFirstAux]
  | cons x xs ih =>
    intro h
    simp only [dedupKeepFirstAux] at h
    by_cases hc : seen.contains x
    · simp only [hc, if_true] at h
      exact List.mem_cons_of_mem _ (ih _ h)
    · simp only [hc, if_false] at h
      rcases List.mem_cons.mp h with h1 | h1
      · exact h1 ▸ List.mem_cons_self _ _
      · exact List.mem_cons_of_mem _ (ih _ h1)

theorem mem_of_mem_dedupKeepFirst [BEq α] {a : α} {l : List α}
    (h : a ∈ dedupKeepFirst l) : a ∈ l :=
  mem_of_mem_dedupKeepFirstAux _ _ h

theorem filename_of_mem_get_event_list (df : List Event) (fname : String) :
    ∀ e ∈ get_event_list_current_file df fname, e.filename = fname := by
  have hmem : ∀ x ∈ df.filter (fun r => r.filename == fname), x.filename = fname := by
    intro x hx
    simpa using List.of_mem_filter hx
  intro e he
  unfold get_event_list_current_file at he
  rcases hf : df.filter (fun r => r.filename == fname) with _ | ⟨r, _ | ⟨r2, rest⟩⟩
  · rw [hf] at he; simp at he
  · rw [hf] at he
    by_cases hl : r.event_label = none
    · simp only [hl, if_true] at he
      simp only [List.mem_singleton] at he
      subst he; rfl
    · simp only [hl, if_false] at he
      simp only [List.mem_singleton] at he
      rw [he]
      exact hmem r (hf ▸ List.mem_cons_self _ _)
  · rw [hf] at he
    exact hmem e (hf ▸ he)

/-! ## Claim theorems -/

/-- Claim C3: for every ground-truth table, metadata and flag setting, an
empty predictions table makes `compute_metrics` return exactly `(0, 0, 0)`,
before any metric computation runs. -/
theorem compute_metrics_empty_predictions {α : Type}
    (backend : List Event → List Event → Bool → Bool → ℚ × ℚ × ℚ)
    (gtruth_df : List Event) (meta_df : Option α) (cal_seg cal_clip : Bool) :
    compute_metrics backend [] gtruth_df meta_df cal_seg cal_clip = (0, 0, 0) := rfl

/-- Claim C7: on a dataframe with no `onset` and no `offset` column,
`format_df` is the identity, whatever the encoder is. -/
theorem format_df_weak_identity (df : DF) (mhe : List Cell → List Int)
    (h1 : df.hasOnset = false) (h2 : df.hasOffset = false) :
    format_df df mhe = df := by
  simp [format_df, h1, h2]

theorem format_df_weak_identity_witness :
    format_df ⟨false, false, [⟨"a.wav", Cell.str "Dog"⟩]⟩ (fun _ => []) =
      ⟨false, false, [⟨"a.wav", Cell.str "Dog"⟩]⟩ :=
  format_df_weak_identity _ _ rfl rfl

/-- Claim C6: `psds_score` queries the evaluator with
`(alpha_ct, alpha_st) = (0,0), (1,0), (0,1)`, each with `max_efpr = 100`, in
that order (exactly three queries when no error occurs), and an evaluator
error is caught and logged, `psds_score` returning normally either way. -/
theorem psds_score_queries_and_catches (psds : ℚ → ℚ → ℚ → Except String ℚ) :
    (∀ qs, psds_try_body psds = .ok qs →
      psds_score psds = ([⟨0, 0, 100⟩, ⟨1, 0, 100⟩, ⟨0, 1, 100⟩], .completed))
    ∧ (∀ e qs, psds_try_body psds = .error (e, qs) →
      psds_score psds = (qs, .errorLogged e)) := by
  constructor
  · intro qs h
    have hq : qs = [⟨0, 0, 100⟩, ⟨1, 0, 100⟩, ⟨0, 1, 100⟩] := by
      rcases h0 : psds 0 0 100 with e | v0 <;>
        rcases h1 : psds 1 0 100 with e1 | v1 <;>
        rcases h2 : psds 0 1 100 with e2 | v2 <;>
        simp [psds_try_body, h0, h1, h2] at h <;>
        exact h.symm
    subst hq
    simp [psds_score, h]
  · intro e qs h
    simp [psds_score, h]

theorem psds_score_queries_and_catches_witness :
    psds_score (fun _ _ _ => Except.ok (0 : ℚ)) =
      ([⟨0, 0, 100⟩, ⟨1, 0, 100⟩, ⟨0, 1, 100⟩], PsdsOutcome.completed) :=
  (psds_score_queries_and_catches (fun _ _ _ => Except.ok (0 : ℚ))).1 _ rfl

/-- Claim C9: in `audio_tagging_results` the per-class precision and recall
divisions are unguarded: with one class, reference `[0]` and a non-empty
estimate `[0]` for the same file, `tp + fp = 0` and `tp + fn = 0`, the
divisions produce NaN, NaN propagates into the trailing `avg` row, while the
F-measure masks the same class to 0. -/
theorem audio_tagging_unguarded_division_nan :
    audio_tagging_macro_p 1 [⟨"a.wav", [0]⟩] [⟨"a.wav", [0]⟩] = [.nan]
    ∧ audio_tagging_macro_r 1 [⟨"a.wav", [0]⟩] [⟨"a.wav", [0]⟩] = [.nan]
    ∧ audio_tagging_avg_row 1 [⟨"a.wav", [0]⟩] [⟨"a.wav", [0]⟩] = (.val 0, .nan, .nan)
    ∧ audio_tagging_macro_f 1 [⟨"a.wav", [0]⟩] [⟨"a.wav", [0]⟩] = [.val 0] := by
  have hcounts : audio_tagging_counts 1 [⟨"a.wav", [0]⟩] [⟨"a.wav", [0]⟩]
      = ([0], [0], [0], [1]) := by decide
  have hp : audio_tagging_macro_p 1 [⟨"a.wav", [0]⟩] [⟨"a.wav", [0]⟩] = [.nan] := by
    simp only [audio_tagging_macro_p, hcounts]
    norm_num [pyDiv]
  have hr : audio_tagging_macro_r 1 [⟨"a.wav", [0]⟩] [⟨"a.wav", [0]⟩] = [.nan] := by
    simp only [audio_tagging_macro_r, hcounts]
    norm_num [pyDiv]
  have hf : audio_tagging_macro_f 1 [⟨"a.wav", [0]⟩] [⟨"a.wav", [0]⟩] = [.val 0] := by
    simp only [audio_tagging_macro_f, hcounts]
    norm_num [macro_f_measure]
  refine ⟨hp, hr, ?_, hf⟩
  simp only [audio_tagging_avg_row, hp, hr, hf]
  norm_num [pyMean, pyAdd, pyDiv]

/-- Claim C4 (counterexample): on a table whose unique row for `"a.wav"` has a
missing label, `get_event_list_current_file` does not return the empty list:
it returns the singleton filename-only record. -/
theorem get_event_list_single_nan_counterexample :
    get_event_list_current_file [⟨"a.wav", none, some 0, some 10⟩] "a.wav" =
      [⟨"a.wav", none, none, none⟩]
    ∧ get_event_list_current_file [⟨"a.wav", none, some 0, some 10⟩] "a.wav" ≠ [] := by
  decide

/-- Claim C4 (amended): when the rows matching `fname` number exactly one and
that row's label is missing, `get_event_list_current_file` yields the
singleton filename-only record (no label, onset or offset) — the "file has no
events" marker — instead of the degenerate row; in every other case it
returns exactly the matching rows as records. -/
theorem get_event_list_current_file_amended (df : List Event) (fname : String) :
    (∀ r, df.filter (fun x => x.filename == fname) = [r] → r.event_label = none →
      get_event_list_current_file df fname =
        [{ filename := fname, event_label := none, onset := none, offset := none }])
    ∧ (∀ r, df.filter (fun x => x.filename == fname) = [r] → r.event_label ≠ none →
      get_event_list_current_file df fname = [r])
    ∧ ((df.filter (fun x => x.filename == fname)).length ≠ 1 →
      get_event_list_current_file df fname = df.filter (fun x => x.filename == fname)) := by
  refine ⟨?_, ?_, ?_⟩
  · intro r hfil hl
    unfold get_event_list_current_file
    rw [hfil]
    simp [hl]
  · intro r hfil hl
    unfold get_event_list_current_file
    rw [hfil]
    simp [hl]
  · intro hlen
    unfold get_event_list_current_file
    rcases hf : df.filter (fun x => x.filename == fname) with _ | ⟨r, _ | ⟨r2, rest⟩⟩
    · rw [hf]
    · exact absurd (by rw [hf]; rfl) hlen
    · rw [hf]

theorem get_event_list_current_file_amended_witness :
    get_event_list_current_file [⟨"a.wav", none, some 0, some 10⟩] "a.wav" =
      [{ filename := "a.wav", event_label := none, onset := none, offset := none }] :=
  (get_event_list_current_file_amended [⟨"a.wav", none, some 0, some 10⟩] "a.wav").1
    ⟨"a.wav", none, some 0, some 10⟩ (by decide) rfl

theorem colCountEq_getD (C : Nat) (v : Int) (m : List (List Int)) (c : Nat)
    (hc : c < C) :
    (colCountEq C v m).getD c 0 = m.countP (fun row => row.getD c 0 == v) := by
  have hlen : c < ((List.range C).map
      (fun c => m.countP (fun row => row.getD c 0 == v))).length := by
    simpa using hc
  rw [colCountEq, List.getD_eq_getElem _ _ hlen, List.getElem_map, List.getElem_range]

theorem countP_matOp (f : Int → Int → Int) (v : Int) :
    ∀ (A B : List (List Int)) (c : Nat),
      (∀ row ∈ A, c < row.length) → (∀ row ∈ B, c < row.length) →
      (matOp f A B).countP (fun row => row.getD c 0 == v) =
        (A.zip B).countP (fun p => f (p.1.getD c 0) (p.2.getD c 0) == v) := by
  intro A
  induction A with
  | nil => intro B c _ _; cases B <;> simp [matOp]
  | cons a A ih =>
    intro B c hA hB
    cases B with
    | nil => simp [matOp]
    | cons b B =>
      have hca : c < a.length := hA a (List.mem_cons_self _ _)
      have hcb : c < b.length := hB b (List.mem_cons_self _ _)
      have hz : (List.zipWith f a b).getD c 0 = f (a.getD c 0) (b.getD c 0) := by
        have hlen : c < (List.zipWith f a b).length := by
          rw [List.length_zipWith]
          exact lt_min hca hcb
        rw [List.getD_eq_getElem _ _ hlen, List.getElem_zipWith,
            List.getD_eq_getElem _ _ hca, List.getD_eq_getElem _ _ hcb]
      have hmat : matOp f (a :: A) (b :: B) = List.zipWith f a b :: matOp f A B := rfl
      rw [hmat, List.zip_cons_cons, List.countP_cons, List.countP_cons, hz,
          ih B c (fun r hr => hA r (List.mem_cons_of_mem _ hr))
            (fun r hr => hB r (List.mem_cons_of_mem _ hr))]

theorem countP_zip_swap {α β : Type} (q : α × β → Bool) :
    ∀ (A : List α) (B : List β),
      (A.zip B).countP q = (B.zip A).countP (fun p => q (p.2, p.1)) := by
  intro A
  induction A with
  | nil => intro B; cases B <;> simp
  | cons a A ih =>
    intro B
    cases B with
    | nil => simp
    | cons b B =>
      rw [List.zip_cons_cons, List.zip_cons_cons, List.countP_cons, List.countP_cons,
          ih B]

theorem countP_four_partition {α : Type} (l : List α) (p1 p2 p3 p4 : α → Bool)
    (h : ∀ x ∈ l, ((if p1 x then 1 else 0) + (if p2 x then 1 else 0)
      + (if p3 x then 1 else 0) + (if p4 x then 1 else 0) : Nat) = 1) :
    l.countP p1 + l.countP p2 + l.countP p3 + l.countP p4 = l.length := by
  induction l with
  | nil => simp
  | cons x xs ih =>
    have hx := h x (List.mem_cons_self _ _)
    have ihx := ih (fun y hy => h y (List.mem_cons_of_mem _ hy))
    simp only [List.countP_cons, List.length_cons]
    cases hp1 : p1 x <;> cases hp2 : p2 x <;> cases hp3 : p3 x <;> cases hp4 : p4 x <;>
      simp only [hp1, hp2, hp3, hp4, if_true, if_false] at hx ⊢ <;> omega

/-- Claim C1: on same-shape {0,1} arrays, `intermediate_at_measures` returns
per-class counts of the rows with `ref + est = 2` (tp), `est - ref = 1` (fp),
`ref - est = 1` (fn) and `ref + est = 0` (tn); on the single-class example
ref = [1,0,1,1], est = [1,1,0,1] it returns tp=2, fp=1, fn=1, tn=0. -/
theorem intermediate_at_measures_spec (C : Nat) (ref est : List (List Int))
    (href : ∀ row ∈ ref, row.length = C) (hest : ∀ row ∈ est, row.length = C) :
    (∀ c, c < C →
      (intermediate_at_measures C ref est).1.getD c 0 =
        (ref.zip est).countP (fun p => p.1.getD c 0 + p.2.getD c 0 == 2)
      ∧ (intermediate_at_measures C ref est).2.1.getD c 0 =
        (ref.zip est).countP (fun p => p.2.getD c 0 - p.1.getD c 0 == 1)
      ∧ (intermediate_at_measures C ref est).2.2.1.getD c 0 =
        (ref.zip est).countP (fun p => p.1.getD c 0 - p.2.getD c 0 == 1)
      ∧ (intermediate_at_measures C ref est).2.2.2.getD c 0 =
        (ref.zip est).countP (fun p => p.1.getD c 0 + p.2.getD c 0 == 0))
    ∧ intermediate_at_measures 1 [[1], [0], [1], [1]] [[1], [1], [0], [1]] =
        ([2], [1], [1], [0]) := by
  constructor
  · intro c hc
    have hr : ∀ row ∈ ref, c < row.length := fun row hrow => (href row hrow) ▸ hc
    have he : ∀ row ∈ est, c < row.length := fun row hrow => (hest row hrow) ▸ hc
    refine ⟨?_, ?_, ?_, ?_⟩
    · rw [show (intermediate_at_measures C ref est).1 =
          colCountEq C 2 (matOp (· + ·) est ref) from rfl,
        colCountEq_getD C 2 _ c hc, countP_matOp _ 2 est ref c he hr,
        countP_zip_swap]
      refine List.countP_congr (fun p _ => ?_)
      simp [Int.add_comm]
    · rw [show (intermediate_at_measures C ref est).2.1 =
          colCountEq C 1 (matOp (· - ·) est ref) from rfl,
        colCountEq_getD C 1 _ c hc, countP_matOp _ 1 est ref c he hr,
        countP_zip_swap]
    · rw [show (intermediate_at_measures C ref est).2.2.1 =
          colCountEq C 1 (matOp (· - ·) ref est) from rfl,
        colCountEq_getD C 1 _ c hc, countP_matOp _ 1 ref est c hr he]
    · rw [show (intermediate_at_measures C ref est).2.2.2 =
          colCountEq C 0 (matOp (· + ·) est ref) from rfl,
        colCountEq_getD C 0 _ c hc, countP_matOp _ 0 est ref c he hr,
        countP_zip_swap]
      refine List.countP_congr (fun p _ => ?_)
      simp [Int.add_comm]
  · decide

theorem intermediate_at_measures_spec_witness :
    (intermediate_at_measures 1 [[1], [0], [1], [1]] [[1], [1], [0], [1]]).1.getD 0 0 =
      (([[1], [0], [1], [1]] :
          List (List Int)).zip [[1], [1], [0], [1]]).countP
        (fun p => p.1.getD 0 0 + p.2.getD 0 0 == 2)
    ∧ intermediate_at_measures 1 [[1], [0], [1], [1]] [[1], [1], [0], [1]] =
        ([2], [1], [1], [0]) := by
  have h := intermediate_at_measures_spec 1 [[1], [0], [1], [1]] [[1], [1], [0], [1]]
    (by decide) (by decide)
  exact ⟨(h.1 0 (by decide)).1, h.2⟩

/-- Claim C8: for same-shape {0,1} arrays, the four per-class counts returned
by `intermediate_at_measures` partition the instance rows:
`tp + fp + fn + tn = number of rows` for every class. -/
theorem intermediate_at_measures_partition (C : Nat) (ref est : List (List Int))
    (hlen : ref.length = est.length)
    (href : ∀ row ∈ ref, row.length = C ∧ ∀ x ∈ row, x = 0 ∨ x = 1)
    (hest : ∀ row ∈ est, row.length = C ∧ ∀ x ∈ row, x = 0 ∨ x = 1) :
    ∀ c, c < C →
      (intermediate_at_measures C ref est).1.getD c 0
      + (intermediate_at_measures C ref est).2.1.getD c 0
      + (intermediate_at_measures C ref est).2.2.1.getD c 0
      + (intermediate_at_measures C ref est).2.2.2.getD c 0 = ref.length := by
  intro c hc
  have hr : ∀ row ∈ ref, c < row.length := fun row hrow => (href row hrow).1 ▸ hc
  have he : ∀ row ∈ est, c < row.length := fun row hrow => (hest row hrow).1 ▸ hc
  have h1 : (intermediate_at_measures C ref est).1.getD c 0 =
      (est.zip ref).countP (fun p => p.1.getD c 0 + p.2.getD c 0 == 2) := by
    rw [show (intermediate_at_measures C ref est).1 =
        colCountEq C 2 (matOp (· + ·) est ref) from rfl,
      colCountEq_getD C 2 _ c hc, countP_matOp _ 2 est ref c he hr]
  have h2 : (intermediate_at_measures C ref est).2.1.getD c 0 =
      (est.zip ref).countP (fun p => p.1.getD c 0 - p.2.getD c 0 == 1) := by
    rw [show (intermediate_at_measures C ref est).2.1 =
        colCountEq C 1 (matOp (· - ·) est ref) from rfl,
      colCountEq_getD C 1 _ c hc, countP_matOp _ 1 est ref c he hr]
  have h3 : (intermediate_at_measures C ref est).2.2.1.getD c 0 =
      (est.zip ref).countP (fun p => p.2.getD c 0 - p.1.getD c 0 == 1) := by
    rw [show (intermediate_at_measures C ref est).2.2.1 =
        colCountEq C 1 (matOp (· - ·) ref est) from rfl,
      colCountEq_getD C 1 _ c hc, countP_matOp _ 1 ref est c hr he,
      countP_zip_swap]
  have h4 : (intermediate_at_measures C ref est).2.2.2.getD c 0 =
      (est.zip ref).countP (fun p => p.1.getD c 0 + p.2.getD c 0 == 0) := by
    rw [show (intermediate_at_measures C ref est).2.2.2 =
        colCountEq C 0 (matOp (· + ·) est ref) from rfl,
      colCountEq_getD C 0 _ c hc, countP_matOp _ 0 est ref c he hr]
  rw [h1, h2, h3, h4]
  have hzeslen : (est.zip ref).length = ref.length := by
    rw [List.length_zip, hlen, min_self]
  rw [← hzeslen]
  refine countP_four_partition (est.zip ref) _ _ _ _ (fun p hp => ?_)
  obtain ⟨hpe, hpr⟩ := List.of_mem_zip hp
  have hb : p.1.getD c 0 = 0 ∨ p.1.getD c 0 = 1 := by
    have hlt := he p.1 hpe
    rw [List.getD_eq_getElem _ _ hlt]
    exact (hest p.1 hpe).2 _ (List.getElem_mem hlt)
  have ha : p.2.getD c 0 = 0 ∨ p.2.getD c 0 = 1 := by
    have hlt := hr p.2 hpr
    rw [List.getD_eq_getElem _ _ hlt]
    exact (href p.2 hpr).2 _ (List.getElem_mem hlt)
  rcases hb with hb | hb <;> rcases ha with ha | ha <;> rw [hb, ha] <;> rfl

theorem intermediate_at_measures_partition_witness :
    (intermediate_at_measures 1 [[1], [0], [1], [1]] [[1], [1], [0], [1]]).1.getD 0 0
    + (intermediate_at_measures 1 [[1], [0], [1], [1]] [[1], [1], [0], [1]]).2.1.getD 0 0
    + (intermediate_at_measures 1 [[1], [0], [1], [1]] [[1], [1], [0], [1]]).2.2.1.getD 0 0
    + (intermediate_at_measures 1 [[1], [0], [1], [1]] [[1], [1], [0], [1]]).2.2.2.getD 0 0
    = ([[1], [0], [1], [1]] : List (List Int)).length :=
  intermediate_at_measures_partition 1 [[1], [0], [1], [1]] [[1], [1], [0], [1]]
    (by decide) (by decide) (by decide) 0 (by decide)

/-- Claim C2: `macro_f_measure` returns, per class, `2*tp/(2*tp+fp+fn)` when
the denominator is nonzero and exactly 0 otherwise; in particular on all-zero
inputs every class's F-measure is 0. -/
theorem macro_f_measure_spec (tp fp fn : List Nat)
    (h1 : fp.length = tp.length) (h2 : fn.length = tp.length) :
    (∀ c, c < tp.length →
      (macro_f_measure tp fp fn).getD c 0 =
        if 2 * tp.getD c 0 + fp.getD c 0 + fn.getD c 0 ≠ 0 then
          (2 * tp.getD c 0 : ℚ) /
            ((2 * tp.getD c 0 + fp.getD c 0 + fn.getD c 0 : Nat) : ℚ)
        else 0)
    ∧ ∀ C, macro_f_measure (List.replicate C 0) (List.replicate C 0)
        (List.replicate C 0) = List.replicate C 0 := by
  constructor
  · intro c hc
    have hfp : c < fp.length := h1 ▸ hc
    have hfn : c < fn.length := h2 ▸ hc
    have hzlen : c < (tp.zip (fp.zip fn)).length := by
      rw [List.length_zip, List.length_zip]
      omega
    have hmaplen : c < ((tp.zip (fp.zip fn)).map (fun p =>
        if 2 * p.1 + p.2.1 + p.2.2 ≠ 0 then
          (2 * p.1 : ℚ) / ((2 * p.1 + p.2.1 + p.2.2 : Nat) : ℚ)
        else 0)).length := by
      simpa using hzlen
    rw [macro_f_measure, List.getD_eq_getElem _ _ hmaplen, List.getElem_map,
        List.getElem_zip, List.getElem_zip,
        List.getD_eq_getElem _ _ hc, List.getD_eq_getElem _ _ hfp,
        List.getD_eq_getElem _ _ hfn]
  · intro C
    induction C with
    | zero => rfl
    | succ n ihn =>
      simp only [List.replicate_succ, macro_f_measure, List.zip_cons_cons,
        List.map_cons] at ihn ⊢
      rw [ihn]
      norm_num

theorem macro_f_measure_spec_witness :
    ((macro_f_measure [2] [1] [1]).getD 0 0 =
      if 2 * ([2] : List Nat).getD 0 0 + ([1] : List Nat).getD 0 0
          + ([1] : List Nat).getD 0 0 ≠ 0 then
        (2 * ([2] : List Nat).getD 0 0 : ℚ) /
          ((2 * ([2] : List Nat).getD 0 0 + ([1] : List Nat).getD 0 0
            + ([1] : List Nat).getD 0 0 : Nat) : ℚ)
      else 0)
    ∧ macro_f_measure (List.replicate 3 0) (List.replicate 3 0)
        (List.replicate 3 0) = List.replicate 3 0 := by
  have h := macro_f_measure_spec [2] [1] [1] (by decide) (by decide)
  exact ⟨h.1 0 (by decide), h.2 3⟩

theorem rows_confusion_cons_col (C : Nat) (v : Int) (f : Int → Int → Int)
    (g1 g2 : MergedRow → List Int) (m : MergedRow) (ms : List MergedRow)
    (c : Nat) (hc : c < C) :
    (colCountEq C v (matOp f ((m :: ms).map g1) ((m :: ms).map g2))).getD c 0
    = (colCountEq C v (matOp f ([m].map g1) ([m].map g2))).getD c 0
      + (colCountEq C v (matOp f (ms.map g1) (ms.map g2))).getD c 0 := by
  rw [colCountEq_getD _ _ _ _ hc, colCountEq_getD _ _ _ _ hc,
      colCountEq_getD _ _ _ _ hc]
  simp only [List.map_cons, List.map_nil, matOp, List.zipWith_cons_cons,
    List.zipWith_nil_right, List.countP_cons, List.countP_nil]
  omega

/-- Claim C5: in `audio_tagging_results` the tables are combined by an outer
join on `filename`; a filename present only in the reference table (with the
estimate table non-empty) gets `none` on the estimate side, which `na_values`
replaces by the all-zero class vector, and each such merged row contributes 1
to `fn` exactly at its reference labels and 0 to `fp` at every class — the
accumulated counts being the row-wise sums (second conjunct). -/
theorem audio_tagging_ref_only_file (C : Nat) (reference estimated : List WeakRow)
    (hne : estimated ≠ []) (f : String)
    (href : f ∈ reference.map (fun r => r.filename))
    (hest : f ∉ estimated.map (fun e => e.filename)) :
    (∀ m ∈ outer_merge reference estimated, m.filename = f →
      m.event_label_pred = none
      ∧ na_values C m.event_label_pred = List.replicate C 0
      ∧ ∀ v, m.event_label_ref = some v → v.length = C →
          (∀ x ∈ v, x = 0 ∨ x = 1) →
        ∀ c, c < C →
          (row_confusion C m).2.2.1.getD c 0 = (if v.getD c 0 = 1 then 1 else 0)
          ∧ (row_confusion C m).2.1.getD c 0 = 0)
    ∧ (∀ (m : MergedRow) (ms : List MergedRow) (c : Nat), c < C →
        (rows_confusion C (m :: ms)).1.getD c 0
          = (row_confusion C m).1.getD c 0 + (rows_confusion C ms).1.getD c 0
        ∧ (rows_confusion C (m :: ms)).2.1.getD c 0
          = (row_confusion C m).2.1.getD c 0 + (rows_confusion C ms).2.1.getD c 0
        ∧ (rows_confusion C (m :: ms)).2.2.1.getD c 0
          = (row_confusion C m).2.2.1.getD c 0 + (rows_confusion C ms).2.2.1.getD c 0
        ∧ (rows_confusion C (m :: ms)).2.2.2.getD c 0
          = (row_confusion C m).2.2.2.getD c 0
            + (rows_confusion C ms).2.2.2.getD c 0) := by
  constructor
  · intro m hm hmf
    have hpred : m.event_label_pred = none := by
      rcases List.mem_append.mp hm with hL | hR
      · obtain ⟨r, hr, hmr⟩ := List.mem_flatMap.mp hL
        by_cases hms : (estimated.filter
            (fun e => e.filename == r.filename)).isEmpty
        · rw [if_pos hms] at hmr
          rw [List.mem_singleton.mp hmr]
        · rw [if_neg hms] at hmr
          obtain ⟨e, he, hme⟩ := List.mem_map.mp hmr
          exfalso
          apply hest
          have hef : e.filename = r.filename := by
            simpa using List.of_mem_filter he
          have hrf : r.filename = f := by rw [← hmf, ← hme]
          have : e.filename = f := by rw [hef, hrf]
          exact this ▸ List.mem_map_of_mem _ (List.mem_of_mem_filter he)
      · obtain ⟨e, he, hme⟩ := List.mem_map.mp hR
        exfalso
        apply hest
        have : e.filename = f := by rw [← hmf, ← hme]
        exact this ▸ List.mem_map_of_mem _ (List.mem_of_mem_filter he)
    refine ⟨hpred, by rw [hpred]; rfl, ?_⟩
    intro v hv hvlen hv01 c hc
    have hrc : row_confusion C m =
        intermediate_at_measures C [v] [List.replicate C 0] := by
      rw [row_confusion, rows_confusion]
      simp [hv, hpred, na_values]
    have hcv : c < v.length := hvlen ▸ hc
    have hcrep : c < (List.replicate C (0 : Int)).length := by simpa using hc
    have hrep0 : (List.replicate C (0 : Int)).getD c 0 = 0 := by
      rw [List.getD_eq_getElem _ _ hcrep, List.getElem_replicate]
    constructor
    · rw [hrc, show (intermediate_at_measures C [v] [List.replicate C 0]).2.2.1 =
          colCountEq C 1 (matOp (· - ·) [v] [List.replicate C 0]) from rfl,
        colCountEq_getD _ _ _ _ hc,
        countP_matOp _ 1 [v] [List.replicate C 0] c
          (by simpa using hcv) (by simpa using hc)]
      simp only [List.zip_cons_cons, List.zip_nil_right, List.countP_singleton,
        hrep0, sub_zero]
      by_cases h1 : v.getD c 0 = 1 <;> simp [h1]
    · rw [hrc, show (intermediate_at_measures C [v] [List.replicate C 0]).2.1 =
          colCountEq C 1 (matOp (· - ·) [List.replicate C 0] [v]) from rfl,
        colCountEq_getD _ _ _ _ hc,
        countP_matOp _ 1 [List.replicate C 0] [v] c
          (by simpa using hc) (by simpa using hcv)]
      simp only [List.zip_cons_cons, List.zip_nil_right, List.countP_singleton,
        hrep0, zero_sub]
      have : v.getD c 0 = 0 ∨ v.getD c 0 = 1 := by
        rw [List.getD_eq_getElem _ _ hcv]
        exact hv01 _ (List.getElem_mem hcv)
      rcases this with h0 | h0 <;> rw [h0] <;> rfl
  · intro m ms c hc
    refine ⟨?_, ?_, ?_, ?_⟩
    · exact rows_confusion_cons_col C 2 (· + ·)
        (fun x => na_values C x.event_label_pred)
        (fun x => na_values C x.event_label_ref) m ms c hc
    · exact rows_confusion_cons_col C 1 (· - ·)
        (fun x => na_values C x.event_label_pred)
        (fun x => na_values C x.event_label_ref) m ms c hc
    · exact rows_confusion_cons_col C 1 (· - ·)
        (fun x => na_values C x.event_label_ref)
        (fun x => na_values C x.event_label_pred) m ms c hc
    · exact rows_confusion_cons_col C 0 (· + ·)
        (fun x => na_values C x.event_label_pred)
        (fun x => na_values C x.event_label_ref) m ms c hc

theorem audio_tagging_ref_only_file_witness :
    (row_confusion 2 ⟨"a.wav", some [1, 0], none⟩).2.2.1.getD 0 0 =
      (if ([1, 0] : List Int).getD 0 0 = 1 then 1 else 0)
    ∧ (row_confusion 2 ⟨"a.wav", some [1, 0], none⟩).2.1.getD 0 0 = 0 := by
  have h := (audio_tagging_ref_only_file 2 [⟨"a.wav", [1, 0]⟩] [⟨"b.wav", [0, 1]⟩]
    (by decide) "a.wav" (by decide) (by decide)).1
    ⟨"a.wav", some [1, 0], none⟩ (by decide) rfl
  exact h.2.2 [1, 0] rfl rfl (by decide) 0 (by decide)

/-- Claim C10: `event_based_evaluation_df` and `segment_based_evaluation_df`
submit per-file event-list pairs only for the distinct filenames of the
reference table; a filename present only in the estimated table is never
evaluated, and no event record with that filename is ever submitted. -/
theorem evaluation_skips_estimated_only_files (reference estimated : List Event)
    (fname : String)
    (hest : fname ∈ estimated.map (fun e => e.filename))
    (href : fname ∉ reference.map (fun r => r.filename)) :
    fname ∉ evaluated_files reference
    ∧ (∀ pr ∈ event_based_evaluation_df reference estimated,
        ∀ e ∈ pr.1, e.filename ≠ fname)
    ∧ (∀ pr ∈ event_based_evaluation_df reference estimated,
        ∀ e ∈ pr.2, e.filename ≠ fname)
    ∧ (∀ pr ∈ segment_based_evaluation_df reference estimated,
        ∀ e ∈ pr.2, e.filename ≠ fname) := by
  have h1 : fname ∉ evaluated_files reference := fun h =>
    href (mem_of_mem_dedupKeepFirst h)
  have key : ∀ pr ∈ (evaluated_files reference).map (fun g =>
      (get_event_list_current_file reference g,
       get_event_list_current_file estimated g)),
      (∀ e ∈ pr.1, e.filename ≠ fname) ∧ (∀ e ∈ pr.2, e.filename ≠ fname) := by
    intro pr hpr
    obtain ⟨g, hg, hgpr⟩ := List.mem_map.mp hpr
    have hgref : g ∈ reference.map (fun r => r.filename) :=
      mem_of_mem_dedupKeepFirst hg
    have hgne : g ≠ fname := fun h => href (h ▸ hgref)
    constructor
    · intro e he
      have : e.filename = g := by
        apply filename_of_mem_get_event_list reference g
        rw [← hgpr] at he
        exact he
      rw [this]; exact hgne
    · intro e he
      have : e.filename = g := by
        apply filename_of_mem_get_event_list estimated g
        rw [← hgpr] at he
        exact he
      rw [this]; exact hgne
  exact ⟨h1,
    fun pr hpr => (key pr hpr).1,
    fun pr hpr => (key pr hpr).2,
    fun pr hpr => (key pr hpr).2⟩

theorem evaluation_skips_estimated_only_files_witness :
    ("b.wav" : String) ∉ evaluated_files [⟨"a.wav", some "Dog", some 0, some 1⟩] :=
  (evaluation_skips_estimated_only_files
    [⟨"a.wav", some "Dog", some 0, some 1⟩]
    [⟨"b.wav", some "Cat", some 0, some 1⟩] "b.wav"
    (by decide) (by decide)).1

end SEDTEval
